import Mathlib

/-
Verification of the fork-off state snapshot and migration tool (src/index.js).

The tool snapshots the key-value state of a chain over RPC and merges a
filtered subset of it into a freshly generated genesis document.  Keys and
values are hex strings in the source; we model strings as lists of
characters.  The mutable JSON object `genesis.raw.top` is modelled as a map
from keys to optionally present values.  Remote calls are modelled by the
data they return; the nondeterministic completion order of concurrently
issued requests is modelled by an explicit order parameter, and the
interleaving of concurrently running leaf traversals by an explicit
interleaving relation.
-/

namespace ForkOff

/-- JavaScript strings (keys, hex values, module names) as lists of characters. -/
abbrev HexStr := List Char

abbrev Key := HexStr

/-- A storage value as recorded in the snapshot artifact: a hex string or
`none`, the latter modelling JSON `null` (the key was absent when its value
was fetched). -/
abbrev Val := Option HexStr

/-- JavaScript `s.startsWith(p)`. -/
def startsWith (s p : HexStr) : Bool := p.isPrefixOf s

/-- The fixed `System.Account` prefix, src/index.js line 73. -/
def systemAccountPrefix : HexStr :=
  "0x26aa394eea5630e07c48ae0c9558cef7b99d880ec681799c0cf30e8886371da9".data

/-- The module names whose storage is skipped, src/index.js lines 75-85. -/
def skippedModulesPrefix : List HexStr :=
  ["Aura".data, "Grandpa".data, "Identity".data, "Session".data, "Substrate".data,
   "System".data, "Timestamp".data, "TransactionPayment".data, "ValidatorSet".data]

/-- The manually excluded key prefixes, src/index.js lines 86-90. -/
def skippedPrefixes : List HexStr :=
  ["0x30db7d3f47a0e1e95d08406497cbc95d183af6c2a611d10d3c89af247d1af0f8".data,
   "0x30db7d3f47a0e1e95d08406497cbc95de556acf9d5dcb43ba1cd73e9244a540c".data,
   "0x30db7d3f47a0e1e95d08406497cbc95d3a42a7dddf1b16a1dc1cd5c92d9cb0a5".data]

/-- One entry of `metadata.asLatest.pallets`: a module name together with the
flag telling whether the module has any storage (`module.storage` is truthy). -/
structure ModuleMeta where
  name : HexStr
  hasStorage : Bool

/-- Lines 163-172: the allowed prefix list starts out as the fixed
`System.Account` prefix and gains `xxhashAsHex(module.name, 128)` for every
module that has storage and is not in the skip list.  The 128-bit name hash
is an external collaborator and is passed as a parameter. -/
def buildPrefixes (hash : HexStr → HexStr) (modules : List ModuleMeta) : List HexStr :=
  systemAccountPrefix ::
    (modules.filter fun m => m.hasStorage && !(skippedModulesPrefix.contains m.name)).map
      fun m => hash m.name

/-- The filter predicate of lines 219-223: the key starts with some allowed
prefix and with no excluded prefix. -/
def selectedEntry (prefixes skipped : List HexStr) (i : Key × Val) : Bool :=
  (prefixes.any fun p => startsWith i.1 p) && !(skipped.any fun p => startsWith i.1 p)

/-- `storage.filter(...)` of lines 218-223. -/
def selectEntries (prefixes skipped : List HexStr) (storage : List (Key × Val)) :
    List (Key × Val) :=
  storage.filter (selectedEntry prefixes skipped)

/-- The JSON object `genesis.raw.top`, modelled as a map from keys to
optionally present values. -/
abbrev Top := Key → Option Val

/-- JavaScript `obj[k] = v`. -/
def setKey (m : Top) (k : Key) (v : Val) : Top := fun q => if q = k then some v else m q

/-- JavaScript `delete obj[k]`; a no-op when the key is absent. -/
def deleteKey (m : Top) (k : Key) : Top := fun q => if q = k then none else m q

/-- The `forEach` of lines 224-227: write each entry into the target mapping
in order. -/
def insertEntries (entries : List (Key × Val)) (m : Top) : Top :=
  entries.foldl (fun t kv => setKey t kv.1 kv.2) m

/-- Lines 216-227: filter the snapshot and insert every selected entry,
counting insertions (`migrated_storages`). -/
def migrateStorage (prefixes skipped : List HexStr) (storage : List (Key × Val)) (m : Top) :
    Top × Nat :=
  let sel := selectEntries prefixes skipped storage
  (insertEntries sel m, sel.length)

/-- The last value written for a key by a list of writes, if any. -/
def lastWrite (entries : List (Key × Val)) (k : Key) : Option Val :=
  entries.foldl (fun acc kv => if kv.1 = k then some kv.2 else acc) none

/-- The well-known code key `"0x3a636f6465"`, line 262. -/
def codeKey : Key := "0x3a636f6465".data

/-- `fixParachinStates`, lines 92-97: delete the parasScheduler
sessionStartBlock key (computed externally, passed as a parameter) from the
forked document's top mapping. -/
def fixParachinStates (schedKey : Key) (m : Top) : Top := deleteKey m schedKey

/-- Lines 259-263: run `fixParachinStates`, then set the code key to
`"0x" +` the hex dump of the runtime blob. -/
def postProcess (schedKey : Key) (codeHex : HexStr) (m : Top) : Top :=
  setKey (fixParachinStates schedKey m) codeKey (some ("0x".data ++ codeHex))

/-- The whole filter-and-merge step applied to a top mapping: the filtered
insertion of lines 216-227 followed by the post-processing of lines 259-263. -/
def mergeStep (prefixes skipped : List HexStr) (storage : List (Key × Val))
    (schedKey : Key) (codeHex : HexStr) (m : Top) : Top :=
  postProcess schedKey codeHex (migrateStorage prefixes skipped storage m).1

/-- A chain-specification document: identity fields plus the raw top mapping. -/
structure GenesisDoc where
  name : HexStr
  id : HexStr
  protocolId : HexStr
  top : Top

/-- The data `main` holds when merging: the two parsed documents and the
parsed snapshot artifact (lines 207-209). -/
structure MainState where
  originalSpec : GenesisDoc
  forkedSpec : GenesisDoc
  storage : List (Key × Val)

/-- Lines 211-265 restricted to the primary target: rename the forked chain
(lines 212-214), merge the selected snapshot entries into its top mapping
(lines 216-227) and post-process (lines 259-263).  Only `forkedSpec` is
assigned to; `originalSpec` and `storage` are read but never written. -/
def mergeMain (prefixes skipped : List HexStr) (schedKey : Key) (codeHex : HexStr)
    (s : MainState) : MainState :=
  { s with
    forkedSpec :=
      { name := s.originalSpec.name ++ "-fork".data
        id := s.originalSpec.id ++ "-fork".data
        protocolId := s.originalSpec.protocolId
        top := mergeStep prefixes skipped s.storage schedKey codeHex s.forkedSpec.top } }

/-- The three kinds of remote state queries issued by the acquisition phase:
`chain_getBlockHash` (line 151), `state_getKeysPaged` (line 279) and
`state_getStorage` (line 290). -/
inductive RemoteQuery where
  | blockHash : RemoteQuery
  | getKeysPaged (pfx : HexStr) (pageSize : Nat) (startKey : Option Key) (atMarker : HexStr) :
      RemoteQuery
  | getStorage (key : Key) (atMarker : HexStr) : RemoteQuery

/-- What a fresh run of the downloader (the `else` branch, lines 145-159)
would do: the remote queries it issues after the block-hash query, and the
artifact it writes. -/
structure FetchRun where
  queries : List RemoteQuery
  artifact : List (Key × Val)

/-- Outcome of the acquisition phase: the state queries performed and the
snapshot content subsequently read at line 207. -/
structure AcquisitionResult where
  queries : List RemoteQuery
  snapshot : List (Key × Val)

/-- Lines 138-160 plus the read at line 207: when the storage artifact
already exists it is reused as-is and the whole `else` branch (block hash
query, chunked fetch, artifact write) is skipped; otherwise the block hash
is queried and the downloader runs and writes the artifact. -/
def acquisition (cachedArtifact : Option (List (Key × Val))) (freshRun : FetchRun) :
    AcquisitionResult :=
  match cachedArtifact with
  | some s => { queries := [], snapshot := s }
  | none =>
      { queries := RemoteQuery.blockHash :: freshRun.queries
        snapshot := freshRun.artifact }

/-- The key space of the remote store at the captured marker, restricted to
one leaf prefix: the ordered list of keys the store holds under it.
`state_getKeysPaged` answers from this list; the portion strictly after the
cursor is the remaining suffix. -/
def afterCursor (store : List Key) : Option Key → List Key
  | none => store
  | some c => (store.dropWhile fun k => decide (k ≠ c)).drop 1

/-- `state_getKeysPaged(prefix, pageSize, startKey, at)` (line 279): up to
`P` keys lexicographically following the cursor. -/
def listKeysPaged (store : List Key) (P : Nat) (cursor : Option Key) : List Key :=
  (afterCursor store cursor).take P

/-- The `while (true)` pagination loop of `fetchChunks` at a leaf (lines
277-304), with explicit fuel bounding the number of listing calls.  The
result records, per listing call, the cursor passed and the page received;
`none` means the fuel ran out before the loop broke.  The cursor advances to
the last key of the page whenever the page is nonempty, and the loop breaks
exactly when a page is shorter than the page size. -/
def fetchLeaf (store : List Key) (P : Nat) : Nat → Option Key → Option (List (Option Key × List Key))
  | 0, _ => none
  | fuel+1, startKey =>
    let keys := listKeysPaged store P startKey
    let nextStart : Option Key :=
      match keys.getLast? with
      | some k => some k
      | none => startKey
    if keys.length < P then some [(startKey, keys)]
    else (fetchLeaf store P fuel nextStart).map fun rest => (startKey, keys) :: rest

/-- Lowercase hexadecimal digit, as produced by JavaScript `Number.toString(16)`. -/
def hexDigit (n : Nat) : Char :=
  if n < 10 then Char.ofNat (48 + n) else Char.ofNat (87 + n)

/-- Base-16 rendering with explicit fuel so the recursion is structural. -/
def natToHexAux : Nat → Nat → List Char
  | 0, _ => []
  | fuel+1, n => if n < 16 then [hexDigit n] else natToHexAux fuel (n / 16) ++ [hexDigit (n % 16)]

/-- JavaScript `n.toString(16)`. -/
def natToHex (n : Nat) : List Char := natToHexAux (n + 1) n

/-- JavaScript `i.toString(16).padStart(2, "0")` (line 315 and 327). -/
def byteToHex (i : Nat) : List Char :=
  let s := natToHex i
  List.replicate (2 - s.length) '0' ++ s

/-- The root prefix `"0x"` passed to `fetchChunks` at line 156. -/
def rootPrefix : HexStr := "0x".data

/-- The leaf prefixes visited by the recursion of `fetchChunks` (lines
275-333), in visiting order: at depth 0 the current prefix is a leaf,
otherwise the 256 one-byte extensions are visited in ascending byte order.
Sequential and QUICK_MODE traversals visit the same prefixes. -/
def leafPrefixes (pfx : HexStr) : Nat → List HexStr
  | 0 => [pfx]
  | L+1 => (List.range 256).flatMap fun i => leafPrefixes (pfx ++ byteToHex i) L

/-- All byte sequences of length `L`, listed in the traversal order of
`fetchChunks` (ascending numeric order of each byte, depth first). -/
def byteSeqs : Nat → List (List Nat)
  | 0 => [[]]
  | L+1 => (List.range 256).flatMap fun i => (byteSeqs L).map (i :: ·)

/-- Hex rendering of a key given as a byte sequence, as the RPC returns it. -/
def keyHex (key : List Nat) : HexStr := rootPrefix ++ (key.map byteToHex).flatten

/-- Inverse of `hexDigit`, used only to prove `byteToHex` injective. -/
def unHexDigit (c : Char) : Nat := if c.toNat ≥ 97 then c.toNat - 87 else c.toNat - 48

/-- Inverse of `byteToHex`, used only to prove `byteToHex` injective. -/
def unByte (s : List Char) : Nat :=
  match s with
  | [c1, c2] => 16 * unHexDigit c1 + unHexDigit c2
  | _ => 0

/-- A key falls under a leaf prefix iff its hex rendering starts with it. -/
def fallsUnder (leaf : HexStr) (key : List Nat) : Bool := startsWith (keyHex key) leaf

/-- The pairs of one page in listing order: each listed key with the value
`state_getStorage` returns for it at the captured marker. -/
def pageEntries (fetch : Key → Val) (keys : List Key) : List (Key × Val) :=
  keys.map fun k => (k, fetch k)

/-- Lines 286-298: the `pairs` array after all concurrently issued value
fetches of a page completed.  Each callback pushes its own key/value pair
when its response arrives, so the array holds the pairs in completion
order, given by the index list `order`. -/
def pagePush (fetch : Key → Val) (keys : List Key) (order : List Nat) : List (Key × Val) :=
  order.filterMap fun i => (keys[i]?).map fun k => (k, fetch k)

/-- The possible contents of `pairs` for one page: some completion order of
the value fetches was realised. -/
def IsPageOut (fetch : Key → Val) (keys : List Key) (out : List (Key × Val)) : Prop :=
  ∃ order : List Nat, order.Perm (List.range keys.length) ∧ out = pagePush fetch keys order

/-- The possible streams of entries a completed leaf traversal appends: the
pagination loop ran to completion and each page contributed its pairs, one
block per page, pages in order. -/
def IsLeafOut (fetch : Key → Val) (P : Nat) (store : List Key) (out : List (Key × Val)) : Prop :=
  ∃ calls pageOuts,
    fetchLeaf store P (store.length / P + 1) none = some calls ∧
    List.Forall₂ (IsPageOut fetch) (calls.map Prod.snd) pageOuts ∧
    out = pageOuts.flatten

/-- `Interleaving ls out` holds when `out` is obtained by interleaving the
streams in `ls`, preserving the internal order of each stream.  This models
how concurrently running leaf traversals share the single output stream:
each write appends one block atomically, in any global order consistent
with each traversal's own order. -/
inductive Interleaving {α : Type} : List (List α) → List α → Prop
  | done (ls : List (List α)) : (∀ l ∈ ls, l = []) → Interleaving ls []
  | step (ls1 : List (List α)) (x : α) (l : List α) (ls2 : List (List α)) (out : List α) :
      Interleaving (ls1 ++ l :: ls2) out →
      Interleaving (ls1 ++ (x :: l) :: ls2) (x :: out)

/-- The entry streams a sequential traversal (`else` branch, lines 323-332)
can append for a subtree: children are traversed one after another, so the
subtree's stream is the concatenation of the children's streams. -/
def SeqOut (fetch : Key → Val) (keysUnder : HexStr → List Key) (P : Nat) :
    Nat → HexStr → List (Key × Val) → Prop
  | 0, pfx, out => IsLeafOut fetch P (keysUnder pfx) out
  | L+1, pfx, out =>
      ∃ outs : List (List (Key × Val)),
        List.Forall₂ (fun i o => SeqOut fetch keysUnder P L (pfx ++ byteToHex i) o)
          (List.range 256) outs ∧
        out = outs.flatten

/-- The entry streams a QUICK_MODE traversal (lines 310-322) can append:
identical to the sequential one except that at `levelsRemaining == 1` the
256 leaf traversals run concurrently, so their streams interleave. -/
def QuickOut (fetch : Key → Val) (keysUnder : HexStr → List Key) (P : Nat) :
    Nat → HexStr → List (Key × Val) → Prop
  | 0, pfx, out => IsLeafOut fetch P (keysUnder pfx) out
  | 1, pfx, out =>
      ∃ outs : List (List (Key × Val)),
        List.Forall₂ (fun i o => IsLeafOut fetch P (keysUnder (pfx ++ byteToHex i)) o)
          (List.range 256) outs ∧
        Interleaving outs out
  | L+2, pfx, out =>
      ∃ outs : List (List (Key × Val)),
        List.Forall₂ (fun i o => QuickOut fetch keysUnder P (L+1) (pfx ++ byteToHex i) o)
          (List.range 256) outs ∧
        out = outs.flatten

/-- Reference stream of a subtree: every leaf's keys in listing order, each
paired with its fetched value, leaves in visiting order. -/
def refOut (fetch : Key → Val) (keysUnder : HexStr → List Key) (L : Nat) (pfx : HexStr) :
    List (Key × Val) :=
  ((leafPrefixes pfx L).map fun q => pageEntries fetch (keysUnder q)).flatten

/-- The example snapshot of the specification's test scenario. -/
def exampleSnapshot : List (Key × Val) :=
  [("0xAA01".data, some "0x1".data), ("0xBB02".data, some "0x2".data),
   ("0xAA99".data, some "0x3".data)]

/-- An initially empty top mapping. -/
def emptyTop : Top := fun _ => none

/-- A small concrete key store used to instantiate pagination theorems. -/
def exampleStore : List Key := ["k1".data, "k2".data, "k3".data]

/-- A concrete scheduler key used to instantiate post-processing theorems. -/
def sampleSchedKey : Key := "0xabcd".data

/-- A concrete runtime hex dump used to instantiate post-processing theorems. -/
def sampleCodeHex : HexStr := "00ff".data

/-- A concrete document used to instantiate the frame theorem. -/
def sampleDoc : GenesisDoc := { name := "c".data, id := "c".data, protocolId := "c".data, top := emptyTop }

/-- A concrete main state used to instantiate the frame theorem. -/
def sampleState : MainState := { originalSpec := sampleDoc, forkedSpec := sampleDoc, storage := [] }

/-- A concrete untouched key used to instantiate the frame theorem. -/
def sampleKey : Key := "0x0102".data

/-- A concrete one-byte key used to instantiate the partition theorem. -/
def sampleKeyBytes : List Nat := [171]

/-- A value-fetch function answering every key with its own hex string. -/
def fetchId : Key → Val := fun k => some k

/-- A concrete two-key page listing. -/
def pageKeys : List Key := ["0x01".data, "0x02".data]

/-- A value-fetch function under which every key is already gone. -/
def emptyFetch : Key → Val := fun _ => none

/-- A store with no keys under any prefix. -/
def emptyKeysUnder : HexStr → List Key := fun _ => []

/-- An empty fresh-run result used to instantiate the cache theorem. -/
def sampleFetchRun : FetchRun := { queries := [], artifact := [] }

end ForkOff

namespace ForkOff

theorem contains_eq_mem_helper (l : List HexStr) (a : HexStr) : l.contains a = true ↔ a ∈ l :=
  List.elem_iff

theorem mem_buildPrefixes {hash : HexStr → HexStr} {modules : List ModuleMeta} {p : HexStr} :
    p ∈ buildPrefixes hash modules ↔
      p = systemAccountPrefix ∨
        ∃ m ∈ modules, m.hasStorage = true ∧ m.name ∉ skippedModulesPrefix ∧ p = hash m.name := by
  simp only [buildPrefixes, List.mem_cons, List.mem_map, List.mem_filter,
    Bool.and_eq_true, Bool.not_eq_true']
  apply or_congr Iff.rfl
  constructor
  · rintro ⟨m, ⟨hm, hs, hns⟩, hp⟩
    refine ⟨m, hm, hs, fun hmem => ?_, hp.symm⟩
    rw [(contains_eq_mem_helper _ _).2 hmem] at hns
    exact absurd hns (by simp)
  · rintro ⟨m, hm, hs, hns, hp⟩
    refine ⟨m, ⟨hm, hs, ?_⟩, hp.symm⟩
    by_contra hc
    rw [Bool.not_eq_false] at hc
    exact hns ((contains_eq_mem_helper _ _).1 hc)

/-- C1: an entry of the snapshot is selected for migration iff its key
starts with some allowed prefix (the fixed System.Account prefix or the
hash of a storage-bearing module outside the skip list) and starts with no
excluded prefix, exclusion winning on overlap; on the specification's
example snapshot with allowed set `0xAA` and excluded set `0xAA99`, exactly
the entry `("0xAA01", "0x1")` is migrated and the reported count is 1. -/
theorem C1_selection :
    (∀ (hash : HexStr → HexStr) (modules : List ModuleMeta) (storage : List (Key × Val))
        (kv : Key × Val),
        kv ∈ selectEntries (buildPrefixes hash modules) skippedPrefixes storage ↔
          kv ∈ storage ∧
            (startsWith kv.1 systemAccountPrefix = true ∨
              ∃ m ∈ modules, m.hasStorage = true ∧ m.name ∉ skippedModulesPrefix ∧
                startsWith kv.1 (hash m.name) = true) ∧
            ∀ p ∈ skippedPrefixes, ¬ startsWith kv.1 p = true) ∧
    selectEntries ["0xAA".data] ["0xAA99".data] exampleSnapshot =
      [("0xAA01".data, some "0x1".data)] ∧
    (migrateStorage ["0xAA".data] ["0xAA99".data] exampleSnapshot emptyTop).2 = 1 ∧
    (migrateStorage ["0xAA".data] ["0xAA99".data] exampleSnapshot emptyTop).1 "0xAA01".data =
      some (some "0x1".data) := by
  refine ⟨?_, by decide, by decide, by decide⟩
  intro hash modules storage kv
  simp only [selectEntries, List.mem_filter, selectedEntry, Bool.and_eq_true,
    Bool.not_eq_true', List.any_eq_false, List.any_eq_true]
  constructor
  · rintro ⟨hmem, ⟨⟨p, hp, hsw⟩, hnone⟩⟩
    refine ⟨hmem, ?_, fun q hq => by simpa using hnone q hq⟩
    rcases mem_buildPrefixes.1 hp with h | ⟨m, hm, hs, hns, rfl⟩
    · exact Or.inl (h ▸ hsw)
    · exact Or.inr ⟨m, hm, hs, hns, hsw⟩
  · rintro ⟨hmem, hall, hnone⟩
    refine ⟨hmem, ⟨?_, fun q hq => by simpa using hnone q hq⟩⟩
    rcases hall with h | ⟨m, hm, hs, hns, hsw⟩
    · exact ⟨systemAccountPrefix, mem_buildPrefixes.2 (Or.inl rfl), h⟩
    · exact ⟨hash m.name, mem_buildPrefixes.2 (Or.inr ⟨m, hm, hs, hns, rfl⟩), hsw⟩

theorem lastWrite_foldl_acc (k : Key) (t : List (Key × Val)) :
    ∀ acc : Option Val,
      t.foldl (fun a kv => if kv.1 = k then some kv.2 else a) acc =
        (lastWrite t k).elim acc some := by
  induction t with
  | nil => intro acc; rfl
  | cons kv t ih =>
    intro acc
    have hl : lastWrite (kv :: t) k =
        (lastWrite t k).elim (if kv.1 = k then some kv.2 else none) some := by
      have h0 : lastWrite (kv :: t) k =
          t.foldl (fun a kv => if kv.1 = k then some kv.2 else a)
            (if kv.1 = k then some kv.2 else none) := rfl
      rw [h0, ih _]
    have h1 : (kv :: t).foldl (fun a kv => if kv.1 = k then some kv.2 else a) acc =
        t.foldl (fun a kv => if kv.1 = k then some kv.2 else a)
          (if kv.1 = k then some kv.2 else acc) := rfl
    rw [h1, ih _, hl]
    cases lastWrite t k with
    | none => by_cases hk : kv.1 = k <;> simp [hk]
    | some v => rfl

theorem lastWrite_cons (kv : Key × Val) (t : List (Key × Val)) (k : Key) :
    lastWrite (kv :: t) k =
      (lastWrite t k).elim (if kv.1 = k then some kv.2 else none) some := by
  have h0 : lastWrite (kv :: t) k =
      t.foldl (fun a kv => if kv.1 = k then some kv.2 else a)
        (if kv.1 = k then some kv.2 else none) := rfl
  rw [h0, lastWrite_foldl_acc]

theorem insertEntries_apply (s : List (Key × Val)) (k : Key) :
    ∀ m : Top, insertEntries s m k = (lastWrite s k).elim (m k) some := by
  induction s with
  | nil => intro m; rfl
  | cons kv t ih =>
    intro m
    have h0 : insertEntries (kv :: t) m = insertEntries t (setKey m kv.1 kv.2) := rfl
    rw [h0, ih _, lastWrite_cons]
    cases lastWrite t k with
    | none =>
      show setKey m kv.1 kv.2 k = (if kv.1 = k then some kv.2 else none).elim (m k) some
      by_cases hk : kv.1 = k
      · simp [setKey, hk]
      · have hk2 : ¬ k = kv.1 := fun hh => hk hh.symm
        simp [setKey, hk, hk2]
    | some v => rfl

theorem lastWrite_eq_none_iff (s : List (Key × Val)) (k : Key) :
    lastWrite s k = none ↔ k ∉ s.map Prod.fst := by
  induction s with
  | nil => simp [lastWrite]
  | cons kv t ih =>
    rw [lastWrite_cons]
    cases h : lastWrite t k with
    | none =>
      have ht : k ∉ t.map Prod.fst := ih.mp h
      by_cases hk : kv.1 = k
      · simp [hk, List.map_cons]
      · have hk2 : ¬ k = kv.1 := fun hh => hk hh.symm
        simp [hk, List.map_cons, hk2, ht]
    | some v =>
      have ht : k ∈ t.map Prod.fst := by
        by_contra hc
        rw [← ih] at hc
        rw [h] at hc
        exact absurd hc (by simp)
      simp [List.map_cons, ht]

/-- Pointwise description of the whole merge step: the code key always holds
the runtime hex, the scheduler key (if different from the code key) is
absent, and any other key holds the last selected write for it, defaulting
to its previous value. -/
theorem mergeStep_apply (prefixes skipped : List HexStr) (storage : List (Key × Val))
    (schedKey : Key) (codeHex : HexStr) (m : Top) (k : Key) :
    mergeStep prefixes skipped storage schedKey codeHex m k =
      if k = codeKey then some (some ("0x".data ++ codeHex))
      else if k = schedKey then none
      else (lastWrite (selectEntries prefixes skipped storage) k).elim (m k) some := by
  show setKey (deleteKey (insertEntries (selectEntries prefixes skipped storage) m) schedKey)
      codeKey (some ("0x".data ++ codeHex)) k = _
  by_cases h1 : k = codeKey
  · simp [setKey, h1]
  · by_cases h2 : k = schedKey
    · simp [setKey, deleteKey, h1, h2]
    · simp only [setKey, deleteKey, h1, h2, if_false]
      exact insertEntries_apply _ _ _

/-- C8: the filter-and-merge step is idempotent: applied twice with the
same snapshot, prefix sets, scheduler key and runtime blob it yields the
same top mapping as applied once, because every insertion is a pure
overwrite keyed by storage key. -/
theorem C8_merge_idempotent (prefixes skipped : List HexStr) (storage : List (Key × Val))
    (schedKey : Key) (codeHex : HexStr) (m : Top) :
    mergeStep prefixes skipped storage schedKey codeHex
        (mergeStep prefixes skipped storage schedKey codeHex m) =
      mergeStep prefixes skipped storage schedKey codeHex m := by
  funext k
  rw [mergeStep_apply prefixes skipped storage schedKey codeHex
      (mergeStep prefixes skipped storage schedKey codeHex m) k,
    mergeStep_apply prefixes skipped storage schedKey codeHex m k]
  by_cases h1 : k = codeKey
  · simp [h1]
  · by_cases h2 : k = schedKey
    · simp [h1, h2]
    · simp only [h1, h2, if_false]
      cases lastWrite (selectEntries prefixes skipped storage) k with
      | none => rfl
      | some v => rfl

/-- C7: after the merge, the code key maps to `"0x"` followed by the hex of
the runtime blob, overwriting any prior value; before that the scheduler
key is deleted, presence or absence alike, and (as long as the scheduler
key is not the code key itself) it is absent from the final mapping. -/
theorem C7_post_processing (schedKey : Key) (codeHex : HexStr) (m : Top) :
    fixParachinStates schedKey m schedKey = none ∧
    postProcess schedKey codeHex m codeKey = some (some ("0x".data ++ codeHex)) ∧
    (schedKey ≠ codeKey → postProcess schedKey codeHex m schedKey = none) := by
  refine ⟨by simp [fixParachinStates, deleteKey], by simp [postProcess, setKey], ?_⟩
  intro hne
  simp [postProcess, setKey, fixParachinStates, deleteKey, hne]

theorem C7_post_processing_witness :
    sampleSchedKey ≠ codeKey ∧
    fixParachinStates sampleSchedKey emptyTop sampleSchedKey = none ∧
    postProcess sampleSchedKey sampleCodeHex emptyTop codeKey =
      some (some ("0x".data ++ sampleCodeHex)) ∧
    postProcess sampleSchedKey sampleCodeHex emptyTop sampleSchedKey = none := by
  have h := C7_post_processing sampleSchedKey sampleCodeHex emptyTop
  exact ⟨by decide, h.1, h.2.1, h.2.2 (by decide)⟩

/-- C10: the merge step leaves the original document and the snapshot
untouched and, in the forked document's top mapping, changes at most the
selected snapshot keys, the scheduler key and the code key: every other key
keeps its value from the generator-produced forked document. -/
theorem C10_frame (prefixes skipped : List HexStr) (schedKey : Key) (codeHex : HexStr)
    (s : MainState) (k : Key) :
    (mergeMain prefixes skipped schedKey codeHex s).originalSpec = s.originalSpec ∧
    (mergeMain prefixes skipped schedKey codeHex s).storage = s.storage ∧
    (k ∉ (selectEntries prefixes skipped s.storage).map Prod.fst → k ≠ schedKey → k ≠ codeKey →
      (mergeMain prefixes skipped schedKey codeHex s).forkedSpec.top k = s.forkedSpec.top k) := by
  refine ⟨rfl, rfl, ?_⟩
  intro hsel hsched hcode
  show mergeStep prefixes skipped s.storage schedKey codeHex s.forkedSpec.top k =
    s.forkedSpec.top k
  rw [mergeStep_apply, if_neg hcode, if_neg hsched, (lastWrite_eq_none_iff _ _).2 hsel]
  rfl

theorem C10_frame_witness :
    sampleKey ∉ (selectEntries [] [] sampleState.storage).map Prod.fst ∧
    sampleKey ≠ sampleSchedKey ∧
    sampleKey ≠ codeKey ∧
    (mergeMain [] [] sampleSchedKey sampleCodeHex sampleState).originalSpec =
      sampleState.originalSpec ∧
    (mergeMain [] [] sampleSchedKey sampleCodeHex sampleState).storage = sampleState.storage ∧
    (mergeMain [] [] sampleSchedKey sampleCodeHex sampleState).forkedSpec.top sampleKey =
      sampleState.forkedSpec.top sampleKey := by
  have h := C10_frame [] [] sampleSchedKey sampleCodeHex sampleState sampleKey
  exact ⟨by decide, by decide, by decide, h.1, h.2.1,
    h.2.2 (by decide) (by decide) (by decide)⟩

theorem fetchLeaf_succ (store : List Key) (P fuel : Nat) (startKey : Option Key) :
    fetchLeaf store P (fuel+1) startKey =
      if (listKeysPaged store P startKey).length < P then
        some [(startKey, listKeysPaged store P startKey)]
      else
        (fetchLeaf store P fuel
            (match (listKeysPaged store P startKey).getLast? with
             | some k => some k
             | none => startKey)).map
          fun rest => (startKey, listKeysPaged store P startKey) :: rest := rfl

theorem dropWhile_ne_of_not_mem (c : Key) (xs ys : List Key) (hx : c ∉ xs) :
    (xs ++ c :: ys).dropWhile (fun k => decide (k ≠ c)) = c :: ys := by
  induction xs with
  | nil => simp [List.dropWhile_cons]
  | cons x xs ih =>
    have hxc : x ≠ c := fun h => hx (by simp [h])
    have hx2 : c ∉ xs := fun h => hx (by simp [h])
    rw [List.cons_append, List.dropWhile_cons, if_pos (by simp [hxc]), ih hx2]

theorem afterCursor_full_page (store : List Key) (hnd : store.Nodup) (P i : Nat) (hP : 0 < P)
    (hfull : ((store.drop i).take P).length = P) (c : Key)
    (hc : ((store.drop i).take P).getLast? = some c) :
    afterCursor store (some c) = store.drop (i + P) := by
  have hPN : P ≤ store.length - i := by
    have h1 : min P (store.length - i) = P := by
      have := List.length_take P (store.drop i)
      rw [List.length_drop] at this
      rw [hfull] at this
      exact this.symm
    omega
  have hidx : store[i + (P - 1)]? = some c := by
    rw [List.getLast?_eq_getElem?] at hc
    rw [hfull] at hc
    rw [List.getElem?_take] at hc
    rw [if_pos (by omega)] at hc
    rw [List.getElem?_drop] at hc
    exact hc
  obtain ⟨hlt, helem⟩ := List.getElem?_eq_some_iff.mp hidx
  have hdecomp : store = store.take (i + (P - 1)) ++ (c :: store.drop (i + P)) := by
    have h1 := List.take_append_drop (i + (P - 1)) store
    have h2 : store.drop (i + (P - 1)) = c :: store.drop (i + P) := by
      rw [List.drop_eq_getElem_cons hlt, helem]
      have : i + (P - 1) + 1 = i + P := by omega
      rw [this]
    rw [← h2, h1]
  have hnotmem : c ∉ store.take (i + (P - 1)) := by
    intro hcmem
    have hnd2 := hnd
    rw [hdecomp, List.nodup_append] at hnd2
    exact hnd2.2.2 hcmem (by simp)
  show (store.dropWhile fun k => decide (k ≠ c)).drop 1 = store.drop (i + P)
  conv => lhs; rw [hdecomp]
  rw [dropWhile_ne_of_not_mem c _ _ hnotmem]
  rfl

theorem fetchLeaf_go (store : List Key) (hnd : store.Nodup) (P : Nat) (hP : 0 < P) :
    ∀ (fuel i : Nat) (cursor : Option Key),
      afterCursor store cursor = store.drop i →
      store.length - i < fuel * P →
      ∃ calls : List (Option Key × List Key),
        fetchLeaf store P fuel cursor = some calls ∧
        (calls.map Prod.snd).flatten = store.drop i ∧
        calls.length = (store.length - i) / P + 1 ∧
        calls.head?.map Prod.fst = some cursor ∧
        (∀ j cj cj1, calls[j]? = some cj → calls[j+1]? = some cj1 → cj1.1 = cj.2.getLast?) ∧
        (∀ j cj, j + 1 < calls.length → calls[j]? = some cj → cj.2.length = P) ∧
        (∀ lastCall, calls.getLast? = some lastCall → lastCall.2.length < P) := by
  intro fuel
  induction fuel with
  | zero =>
    intro i cursor _ hlen
    simp at hlen
  | succ fuel ih =>
    intro i cursor hcur hlen
    have hkeys : listKeysPaged store P cursor = (store.drop i).take P := by
      show (afterCursor store cursor).take P = _
      rw [hcur]
    by_cases hshort : (listKeysPaged store P cursor).length < P
    · have hNi : store.length - i < P := by
        rw [hkeys, List.length_take, List.length_drop] at hshort
        have h2 : min P (store.length - i) < P := hshort
        omega
      have htake : (store.drop i).take P = store.drop i :=
        List.take_of_length_le (by rw [List.length_drop]; omega)
      refine ⟨[(cursor, (store.drop i).take P)], ?_, ?_, ?_, ?_, ?_, ?_, ?_⟩
      · rw [fetchLeaf_succ, if_pos hshort, hkeys]
      · simp [htake]
      · simp [Nat.div_eq_of_lt hNi]
      · simp
      · intro j cj cj1 _ h2
        rcases j with _ | j <;> simp at h2
      · intro j cj hj _
        simp at hj
      · intro lastCall hl
        simp at hl
        rw [← hl]
        show (List.take P (List.drop i store)).length < P
        rw [htake, List.length_drop]
        omega
    · have hfull : ((store.drop i).take P).length = P := by
        rw [hkeys] at hshort
        rw [List.length_take]
        have h2 : ¬ min P ((store.drop i).length) < P := by
          rw [List.length_take] at hshort
          exact hshort
        have h3 : min P ((store.drop i).length) ≤ P := by omega
        omega
      have hNi : P ≤ store.length - i := by
        rw [List.length_take, List.length_drop] at hfull
        have h2 : min P (store.length - i) = P := hfull
        omega
      obtain ⟨c, hc⟩ : ∃ c, ((store.drop i).take P).getLast? = some c := by
        cases hgl : ((store.drop i).take P).getLast? with
        | none =>
          rw [List.getLast?_eq_none_iff] at hgl
          rw [hgl] at hfull
          simp at hfull
          omega
        | some c => exact ⟨c, rfl⟩
      have hcur2 : afterCursor store (some c) = store.drop (i + P) :=
        afterCursor_full_page store hnd P i hP hfull c hc
      have hlen2 : store.length - (i + P) < fuel * P := by
        have h1 := hlen
        rw [Nat.succ_mul] at h1
        set M := fuel * P with hM
        omega
      obtain ⟨calls2, hceval, hflat, hclen, hchead, hchain, hcfull, hclast⟩ :=
        ih (i + P) (some c) hcur2 hlen2
      have heval : fetchLeaf store P (fuel+1) cursor =
          (fetchLeaf store P fuel (some c)).map
            (fun rest => (cursor, (store.drop i).take P) :: rest) := by
        rw [fetchLeaf_succ, if_neg hshort, hkeys, hc]
      refine ⟨(cursor, (store.drop i).take P) :: calls2, ?_, ?_, ?_, ?_, ?_, ?_, ?_⟩
      · rw [heval, hceval]
        rfl
      · rw [List.map_cons, List.flatten_cons, hflat]
        have hdd : store.drop (i + P) = (store.drop i).drop P := by
          rw [List.drop_drop]
        rw [hdd]
        exact List.take_append_drop P (store.drop i)
      · simp only [List.length_cons, hclen]
        have h1 : store.length - (i + P) = store.length - i - P := by omega
        rw [h1, ← Nat.div_eq_sub_div hP hNi]
      · simp
      · intro j cj cj1 h1 h2
        rcases j with _ | j
        · rw [List.getElem?_cons_zero] at h1
          rw [List.getElem?_cons_succ] at h2
          have hh : (calls2[0]?).map Prod.fst = some (some c) := by
            rw [← List.head?_eq_getElem?]
            exact hchead
          rw [h2] at hh
          simp at hh
          have hcj : cj = (cursor, (store.drop i).take P) := by
            simpa using h1.symm
          rw [hcj, hh, hc]
        · rw [List.getElem?_cons_succ] at h1
          rw [List.getElem?_cons_succ] at h2
          exact hchain j cj cj1 h1 h2
      · intro j cj hj h1
        rcases j with _ | j
        · have hcj : cj = (cursor, (store.drop i).take P) := by
            rw [List.getElem?_cons_zero] at h1
            simpa using h1.symm
          rw [hcj]
          exact hfull
        · rw [List.getElem?_cons_succ] at h1
          refine hcfull j cj ?_ h1
          simp only [List.length_cons] at hj
          omega
      · intro lastCall hl
        have hne : calls2 ≠ [] := by
          intro he
          rw [he] at hchead
          simp at hchead
        cases calls2 with
        | nil => exact absurd rfl hne
        | cons y t =>
          rw [List.getLast?_cons_cons] at hl
          exact hclast lastCall hl

/-- C2: over a leaf prefix holding `N` distinct keys at the captured marker,
with page size `P ≥ 1`, the pagination loop performs exactly `ceil(N/P)`
listing calls (`ceil(N/P)+1` when `P` divides `N`, including `N = 0`), the
first with no cursor and each later one with the previous page's last key
as cursor; it returns exactly the `N` keys in store order (distinct since
the store's keys are), every page except the last is full, and the loop
stops exactly at the first page shorter than `P`. -/
theorem C2_paged_fetch (store : List Key) (P : Nat) (hnd : store.Nodup) (hP : 0 < P) :
    ∃ calls : List (Option Key × List Key),
      fetchLeaf store P (store.length / P + 1) none = some calls ∧
      (calls.map Prod.snd).flatten = store ∧
      calls.length =
        (if P ∣ store.length then store.length / P + 1 else (store.length + P - 1) / P) ∧
      calls.head?.map Prod.fst = some none ∧
      (∀ j cj cj1, calls[j]? = some cj → calls[j+1]? = some cj1 → cj1.1 = cj.2.getLast?) ∧
      (∀ j cj, j + 1 < calls.length → calls[j]? = some cj → cj.2.length = P) ∧
      (∀ lastCall, calls.getLast? = some lastCall → lastCall.2.length < P) := by
  have hcur : afterCursor store none = store.drop 0 := by
    show store = store.drop 0
    rw [List.drop_zero]
  have hfuel : store.length - 0 < (store.length / P + 1) * P := by
    have h1 := Nat.div_add_mod store.length P
    have h2 : store.length % P < P := Nat.mod_lt _ hP
    rw [Nat.succ_mul]
    rw [Nat.mul_comm P (store.length / P)] at h1
    set M := store.length / P * P with hM
    omega
  obtain ⟨calls, h1, h2, h3, h4, h5, h6, h7⟩ :=
    fetchLeaf_go store hnd P hP (store.length / P + 1) 0 none hcur hfuel
  rw [List.drop_zero] at h2
  refine ⟨calls, h1, h2, ?_, h4, h5, h6, h7⟩
  rw [h3]
  have hsub : store.length - 0 = store.length := by omega
  rw [hsub]
  by_cases hd : P ∣ store.length
  · rw [if_pos hd]
  · rw [if_neg hd]
    have hr0 : store.length % P ≠ 0 := fun h0 => hd (Nat.dvd_of_mod_eq_zero h0)
    have h2 : store.length % P < P := Nat.mod_lt _ hP
    have hmod := Nat.div_add_mod store.length P
    have h4 : store.length + P - 1 =
        P * (store.length / P) + (store.length % P + P - 1) := by omega
    rw [h4, Nat.mul_add_div hP]
    have h5 : (store.length % P + P - 1) / P = 1 := by
      apply Nat.div_eq_of_lt_le
      · omega
      · omega
    rw [h5]

theorem C2_paged_fetch_witness :
    exampleStore.Nodup ∧ 0 < 2 ∧
    (∃ calls : List (Option Key × List Key),
      fetchLeaf exampleStore 2 (exampleStore.length / 2 + 1) none = some calls ∧
      (calls.map Prod.snd).flatten = exampleStore ∧
      calls.length =
        (if 2 ∣ exampleStore.length then exampleStore.length / 2 + 1
         else (exampleStore.length + 2 - 1) / 2) ∧
      calls.head?.map Prod.fst = some none ∧
      (∀ j cj cj1, calls[j]? = some cj → calls[j+1]? = some cj1 → cj1.1 = cj.2.getLast?) ∧
      (∀ j cj, j + 1 < calls.length → calls[j]? = some cj → cj.2.length = 2) ∧
      (∀ lastCall, calls.getLast? = some lastCall → lastCall.2.length < 2)) :=
  ⟨by decide, by decide, C2_paged_fetch exampleStore 2 (by decide) (by decide)⟩

set_option maxRecDepth 8000 in
theorem byteToHex_len2 : ∀ b, b < 256 → (byteToHex b).length = 2 := by decide

set_option maxRecDepth 8000 in
theorem byteToHex_unByte : ∀ b, b < 256 → unByte (byteToHex b) = b := by decide

theorem byteToHex_inj : ∀ a, a < 256 → ∀ b, b < 256 → byteToHex a = byteToHex b → a = b := by
  intro a ha b hb h
  have h1 := byteToHex_unByte a ha
  have h2 := byteToHex_unByte b hb
  rw [← h1, ← h2, h]

theorem byteSeqs_mem_length : ∀ {L : Nat} {bs : List Nat}, bs ∈ byteSeqs L → bs.length = L := by
  intro L
  induction L with
  | zero =>
    intro bs h
    simp only [byteSeqs, List.mem_singleton] at h
    rw [h]
    rfl
  | succ L ih =>
    intro bs h
    simp only [byteSeqs, List.mem_flatMap, List.mem_map] at h
    obtain ⟨i, _, t, ht, rfl⟩ := h
    simp [ih ht]

theorem byteSeqs_mem_bound : ∀ {L : Nat} {bs : List Nat}, bs ∈ byteSeqs L → ∀ b ∈ bs, b < 256 := by
  intro L
  induction L with
  | zero =>
    intro bs h
    simp only [byteSeqs, List.mem_singleton] at h
    rw [h]
    intro b hb
    simp at hb
  | succ L ih =>
    intro bs h
    simp only [byteSeqs, List.mem_flatMap, List.mem_map] at h
    obtain ⟨i, hi, t, ht, rfl⟩ := h
    intro b hb
    rcases List.mem_cons.mp hb with hb | hb
    · rw [hb]
      exact List.mem_range.mp hi
    · exact ih ht b hb

theorem byteSeqs_complete :
    ∀ {L : Nat} {bs : List Nat}, bs.length = L → (∀ b ∈ bs, b < 256) → bs ∈ byteSeqs L := by
  intro L
  induction L with
  | zero =>
    intro bs hlen _
    rw [List.length_eq_zero] at hlen
    simp [byteSeqs, hlen]
  | succ L ih =>
    intro bs hlen hb
    cases bs with
    | nil => simp at hlen
    | cons b t =>
      simp only [byteSeqs, List.mem_flatMap, List.mem_map]
      refine ⟨b, List.mem_range.mpr (hb b (by simp)), t,
        ih (by simpa using hlen) (fun x hx => hb x (by simp [hx])), rfl⟩

theorem byteSeqs_nodup : ∀ L, (byteSeqs L).Nodup := by
  intro L
  induction L with
  | zero => simp [byteSeqs]
  | succ L ih =>
    show ((List.range 256).flatMap fun i => (byteSeqs L).map (i :: ·)).Nodup
    rw [List.nodup_flatMap]
    constructor
    · intro i _
      exact ih.map List.cons_injective
    · refine List.Pairwise.imp ?_ (List.pairwise_lt_range 256)
      intro i j hij
      intro x hxi hxj
      obtain ⟨t1, _, rfl⟩ := List.mem_map.mp hxi
      obtain ⟨t2, _, heq⟩ := List.mem_map.mp hxj
      injection heq with hh _
      omega

theorem byteSeqs_pairwise_lex : ∀ L, (byteSeqs L).Pairwise (List.Lex (· < ·)) := by
  intro L
  induction L with
  | zero => simp [byteSeqs]
  | succ L ih =>
    show ((List.range 256).flatMap fun i => (byteSeqs L).map (i :: ·)).Pairwise _
    rw [List.flatMap_def, List.pairwise_flatten]
    constructor
    · intro lf hlf
      obtain ⟨i, _, rfl⟩ := List.mem_map.mp hlf
      rw [List.pairwise_map]
      exact ih.imp fun hab => List.Lex.cons hab
    · rw [List.pairwise_map]
      refine List.Pairwise.imp ?_ (List.pairwise_lt_range 256)
      intro i j hij
      intro x hxi y hyj
      obtain ⟨t1, _, rfl⟩ := List.mem_map.mp hxi
      obtain ⟨t2, _, rfl⟩ := List.mem_map.mp hyj
      exact List.Lex.rel hij

theorem byteSeqs_len : ∀ L, (byteSeqs L).length = 256 ^ L := by
  intro L
  induction L with
  | zero => rfl
  | succ L ih =>
    show ((List.range 256).flatMap fun i => (byteSeqs L).map (i :: ·)).length = _
    rw [List.length_flatMap]
    have h1 : List.map (List.length ∘ fun i => (byteSeqs L).map (i :: ·)) (List.range 256) =
        List.map (fun _ => 256 ^ L) (List.range 256) := by
      apply List.map_congr_left
      intro i _
      show ((byteSeqs L).map (i :: ·)).length = 256 ^ L
      rw [List.length_map, ih]
    rw [h1, List.map_const', List.sum_replicate, smul_eq_mul, List.length_range, pow_succ]
    exact Nat.mul_comm 256 (256 ^ L)

theorem leafPrefixes_eq_map : ∀ (L : Nat) (pfx : HexStr),
    leafPrefixes pfx L = (byteSeqs L).map fun bs => pfx ++ (bs.map byteToHex).flatten := by
  intro L
  induction L with
  | zero =>
    intro pfx
    show [pfx] = [pfx ++ (([] : List Nat).map byteToHex).flatten]
    simp
  | succ L ih =>
    intro pfx
    have h3 : (fun i => leafPrefixes (pfx ++ byteToHex i) L) =
        fun i => ((byteSeqs L).map (i :: ·)).map fun bs => pfx ++ (bs.map byteToHex).flatten := by
      funext i
      rw [ih (pfx ++ byteToHex i), List.map_map]
      apply List.map_congr_left
      intro bs _
      show (pfx ++ byteToHex i) ++ (bs.map byteToHex).flatten =
        pfx ++ ((i :: bs).map byteToHex).flatten
      rw [List.map_cons, List.flatten_cons, List.append_assoc]
    calc (List.range 256).flatMap (fun i => leafPrefixes (pfx ++ byteToHex i) L)
        = (List.range 256).flatMap fun i =>
            ((byteSeqs L).map (i :: ·)).map fun bs => pfx ++ (bs.map byteToHex).flatten := by
          rw [h3]
      _ = ((List.range 256).flatMap fun i => (byteSeqs L).map (i :: ·)).map
            fun bs => pfx ++ (bs.map byteToHex).flatten :=
          (List.map_flatMap _ _ _).symm

theorem flatten_byteToHex_prefix_iff :
    ∀ (l1 l2 : List Nat), (∀ b ∈ l1, b < 256) → (∀ b ∈ l2, b < 256) →
      ((l1.map byteToHex).flatten <+: (l2.map byteToHex).flatten ↔ l1 <+: l2) := by
  intro l1
  induction l1 with
  | nil =>
    intro l2 _ _
    simp
  | cons a t1 ih =>
    intro l2 h1 h2
    have ha2 : (byteToHex a).length = 2 := byteToHex_len2 a (h1 a (by simp))
    cases l2 with
    | nil =>
      rw [List.map_nil, List.flatten_nil, List.map_cons, List.flatten_cons]
      rw [ List.prefix_nil, List.prefix_nil]
      constructor
      · intro h
        exfalso
        rw [List.append_eq_nil] at h
        rw [h.1] at ha2
        simp at ha2
      · intro h
        exact absurd h (List.cons_ne_nil a t1)
    | cons b t2 =>
      have hb2 : (byteToHex b).length = 2 := byteToHex_len2 b (h2 b (by simp))
      rw [List.map_cons, List.map_cons, List.flatten_cons, List.flatten_cons]
      constructor
      · rintro ⟨t, ht⟩
        rw [List.append_assoc] at ht
        obtain ⟨hab, hrest⟩ := List.append_inj ht (ha2.trans hb2.symm)
        have haeq : a = b := byteToHex_inj a (h1 a (by simp)) b (h2 b (by simp)) hab
        rw [List.cons_prefix_cons]
        refine ⟨haeq, ?_⟩
        have hsub : (t1.map byteToHex).flatten <+: (t2.map byteToHex).flatten := ⟨t, hrest⟩
        exact (ih t2 (fun x hx => h1 x (by simp [hx])) (fun x hx => h2 x (by simp [hx]))).mp hsub
      · intro h
        rw [List.cons_prefix_cons] at h
        obtain ⟨haeq, ht⟩ := h
        rw [haeq, List.prefix_append_right_inj]
        exact (ih t2 (fun x hx => h1 x (by simp [hx])) (fun x hx => h2 x (by simp [hx]))).mpr ht

theorem fallsUnder_iff (bs key : List Nat) (hbs : ∀ b ∈ bs, b < 256)
    (hkey : ∀ b ∈ key, b < 256) :
    fallsUnder (rootPrefix ++ (bs.map byteToHex).flatten) key = true ↔ bs <+: key := by
  show (rootPrefix ++ (bs.map byteToHex).flatten).isPrefixOf (keyHex key) = true ↔ _
  rw [ List.isPrefixOf_iff_prefix]
  show rootPrefix ++ (bs.map byteToHex).flatten <+: rootPrefix ++ (key.map byteToHex).flatten ↔ _
  rw [ List.prefix_append_right_inj]
  exact flatten_byteToHex_prefix_iff bs key hbs hkey

theorem countP_beq_eq_one {l : List (List Nat)} {a : List Nat} (hnd : l.Nodup) (ha : a ∈ l) :
    List.countP (· == a) l = 1 := by
  induction l with
  | nil => simp at ha
  | cons x t ih =>
    rw [List.countP_cons]
    rcases List.mem_cons.mp ha with rfl | hat
    · have hnt : a ∉ t := (List.nodup_cons.mp hnd).1
      have h0 : List.countP (· == a) t = 0 := by
        rw [List.countP_eq_zero]
        intro y hy hbe
        exact hnt (by rwa [beq_iff_eq.mp hbe] at hy)
      simp [h0]
    · have hxa : ¬ (x == a) = true := by
        intro hbe
        have hx := beq_iff_eq.mp hbe
        rw [hx] at hnd
        exact (List.nodup_cons.mp hnd).1 hat
      have h1 := ih (List.nodup_cons.mp hnd).2 hat
      simp [h1, hxa]

theorem countP_fallsUnder (L : Nat) (key : List Nat) (hkey : ∀ b ∈ key, b < 256) :
    (leafPrefixes rootPrefix L).countP (fun lf => fallsUnder lf key) =
      if L ≤ key.length then 1 else 0 := by
  rw [leafPrefixes_eq_map, List.countP_map]
  by_cases hL : L ≤ key.length
  · rw [if_pos hL]
    have hcongr : List.countP
        ((fun lf => fallsUnder lf key) ∘ fun bs => rootPrefix ++ (bs.map byteToHex).flatten)
        (byteSeqs L) = List.countP (· == key.take L) (byteSeqs L) := by
      apply List.countP_congr
      intro bs hbs
      have hlen := byteSeqs_mem_length hbs
      have hbnd := byteSeqs_mem_bound hbs
      simp only [Function.comp_apply]
      constructor
      · intro hp
        have h := (fallsUnder_iff bs key hbnd hkey).mp hp
        rw [ List.prefix_iff_eq_take, hlen] at h
        exact beq_iff_eq.mpr h
      · intro hb
        have hbe : bs = key.take L := beq_iff_eq.mp hb
        apply (fallsUnder_iff bs key hbnd hkey).mpr
        rw [hbe]
        exact List.take_prefix L key
    rw [hcongr]
    apply countP_beq_eq_one (byteSeqs_nodup L)
    apply byteSeqs_complete
    · have h1 : (key.take L).length = min L key.length := List.length_take L key
      omega
    · intro b hb2
      exact hkey b (List.mem_of_mem_take hb2)
  · rw [if_neg hL]
    rw [List.countP_eq_zero]
    intro bs hbs hp
    have hlen := byteSeqs_mem_length hbs
    have hbnd := byteSeqs_mem_bound hbs
    simp only [Function.comp_apply] at hp
    have h := (fallsUnder_iff bs key hbnd hkey).mp hp
    have h2 := List.IsPrefix.length_le h
    omega

/-- C3 (amended): for every depth `L ≥ 0` the chunk traversal visits
exactly `256^L` leaf prefixes, each equal to the root prefix extended by
`L` bytes rendered as two lowercase hex digits, in ascending numeric byte
order; these leaves partition the space of keys holding at least `L`
bytes -- every such key falls under exactly one leaf prefix, while a key
with fewer than `L` bytes falls under none; for `L = 0` the single leaf is
the root prefix `0x`. -/
theorem C3_partition (L : Nat) :
    leafPrefixes rootPrefix L =
      (byteSeqs L).map (fun bs => rootPrefix ++ (bs.map byteToHex).flatten) ∧
    (leafPrefixes rootPrefix L).length = 256 ^ L ∧
    (byteSeqs L).Pairwise (List.Lex (· < ·)) ∧
    (∀ b, b < 256 → (byteToHex b).length = 2) ∧
    (L = 0 → leafPrefixes rootPrefix L = [rootPrefix]) ∧
    (∀ key : List Nat, (∀ b ∈ key, b < 256) →
      (leafPrefixes rootPrefix L).countP (fun lf => fallsUnder lf key) =
        if L ≤ key.length then 1 else 0) := by
  refine ⟨leafPrefixes_eq_map L rootPrefix, ?_, byteSeqs_pairwise_lex L, byteToHex_len2, ?_, ?_⟩
  · rw [leafPrefixes_eq_map L rootPrefix, List.length_map, byteSeqs_len]
  · intro h
    rw [h]
    rfl
  · intro key hkey
    exact countP_fallsUnder L key hkey

theorem C3_partition_witness :
    (∀ b ∈ sampleKeyBytes, b < 256) ∧
    (leafPrefixes rootPrefix 1).countP (fun lf => fallsUnder lf sampleKeyBytes) =
      if 1 ≤ sampleKeyBytes.length then 1 else 0 :=
  ⟨by decide, (C3_partition 1).2.2.2.2.2 sampleKeyBytes (by decide)⟩

set_option maxRecDepth 8000 in
/-- C3 counterexample: at depth 1 the empty key (a key with fewer than one
byte) falls under none of the 256 leaf prefixes, so it is not the case that
every possible key falls under exactly one leaf prefix. -/
theorem C3_empty_key_counterexample :
    (leafPrefixes rootPrefix 1).countP (fun lf => fallsUnder lf ([] : List Nat)) = 0 := by
  decide

theorem pagePush_range (fetch : Key → Val) :
    ∀ keys : List Key, pagePush fetch keys (List.range keys.length) = pageEntries fetch keys := by
  intro keys
  induction keys with
  | nil => rfl
  | cons k t ih =>
    show (List.range (t.length + 1)).filterMap
        (fun i => ((k :: t)[i]?).map fun q => (q, fetch q)) = (k, fetch k) :: pageEntries fetch t
    rw [List.range_succ_eq_map, List.filterMap_cons, List.filterMap_map]
    have hc : ((fun i => ((k :: t)[i]?).map fun q => (q, fetch q)) ∘ Nat.succ) =
        fun i => (t[i]?).map fun q => (q, fetch q) := by
      funext i
      simp [Function.comp, List.getElem?_cons_succ]
    rw [hc]
    simp only [List.getElem?_cons_zero, Option.map_some']
    exact congrArg (List.cons (k, fetch k)) ih

theorem pagePush_perm (fetch : Key → Val) (keys : List Key) (order : List Nat)
    (h : order.Perm (List.range keys.length)) :
    (pagePush fetch keys order).Perm (pageEntries fetch keys) := by
  have h1 : (pagePush fetch keys order).Perm (pagePush fetch keys (List.range keys.length)) :=
    List.Perm.filterMap _ h
  rw [pagePush_range] at h1
  exact h1

theorem interleaving_perm {α : Type} :
    ∀ {ls : List (List α)} {out : List α}, Interleaving ls out → out.Perm ls.flatten := by
  intro ls out h
  induction h with
  | done ls h =>
    rw [List.flatten_eq_nil_iff.mpr h]
  | step ls1 x l ls2 out _ ih =>
    have heq1 : (ls1 ++ (x :: l) :: ls2).flatten = ls1.flatten ++ (x :: (l ++ ls2.flatten)) := by
      rw [List.flatten_append, List.flatten_cons]
      simp
    have heq2 : (ls1 ++ l :: ls2).flatten = ls1.flatten ++ (l ++ ls2.flatten) := by
      rw [List.flatten_append, List.flatten_cons]
    rw [heq1]
    rw [heq2] at ih
    exact (ih.cons x).trans List.perm_middle.symm

theorem fetchLeaf_flatten (store : List Key) (P : Nat) (hnd : store.Nodup) (hP : 0 < P)
    (calls : List (Option Key × List Key))
    (h : fetchLeaf store P (store.length / P + 1) none = some calls) :
    (calls.map Prod.snd).flatten = store := by
  have hcur : afterCursor store none = store.drop 0 := by
    show store = store.drop 0
    rw [List.drop_zero]
  have hfuel : store.length - 0 < (store.length / P + 1) * P := by
    have h1 := Nat.div_add_mod store.length P
    have h2 : store.length % P < P := Nat.mod_lt _ hP
    rw [Nat.succ_mul]
    rw [Nat.mul_comm P (store.length / P)] at h1
    set M := store.length / P * P with hM
    omega
  obtain ⟨calls2, h1, h2, _⟩ :=
    fetchLeaf_go store hnd P hP (store.length / P + 1) 0 none hcur hfuel
  rw [h] at h1
  injection h1 with h1
  rw [← h1] at h2
  rw [h2, List.drop_zero]

theorem isLeafOut_perm (fetch : Key → Val) (P : Nat) (store : List Key)
    (out : List (Key × Val)) (hnd : store.Nodup) (hP : 0 < P)
    (h : IsLeafOut fetch P store out) : out.Perm (pageEntries fetch store) := by
  obtain ⟨calls, pageOuts, hfetch, hf2, rfl⟩ := h
  have hflat := fetchLeaf_flatten store P hnd hP calls hfetch
  have hfp : List.Forall₂ (fun o r => o.Perm r) pageOuts
      ((calls.map Prod.snd).map (pageEntries fetch)) := by
    rw [List.forall₂_map_right_iff]
    refine List.Forall₂.imp ?_ hf2.flip
    intro o pg hpo
    obtain ⟨order, hperm, rfl⟩ := hpo
    exact pagePush_perm fetch pg order hperm
  refine (List.Perm.flatten_congr hfp).trans ?_
  have he : ((calls.map Prod.snd).map (pageEntries fetch)).flatten = pageEntries fetch store := by
    show ((calls.map Prod.snd).map (List.map fun k => (k, fetch k))).flatten = _
    rw [← List.map_flatten, hflat]
    rfl
  rw [he]

theorem flatMap_flatten_eq {α : Type} {β : Type} (l : List α) (f : α → List (List β)) :
    (l.flatMap f).flatten = (l.map fun a => (f a).flatten).flatten := by
  induction l with
  | nil => rfl
  | cons a t ih =>
    rw [List.flatMap_cons, List.flatten_append, List.map_cons, List.flatten_cons, ih]

theorem refOut_succ (fetch : Key → Val) (kU : HexStr → List Key) (L : Nat) (pfx : HexStr) :
    refOut fetch kU (L+1) pfx =
      ((List.range 256).map fun i => refOut fetch kU L (pfx ++ byteToHex i)).flatten := by
  show (((List.range 256).flatMap fun i => leafPrefixes (pfx ++ byteToHex i) L).map
      fun q => pageEntries fetch (kU q)).flatten = _
  rw [List.map_flatMap]
  exact flatMap_flatten_eq _ _

theorem refOut_zero (fetch : Key → Val) (kU : HexStr → List Key) (pfx : HexStr) :
    refOut fetch kU 0 pfx = pageEntries fetch (kU pfx) := by
  show ([pageEntries fetch (kU pfx)]).flatten = _
  simp

theorem seqOut_perm (fetch : Key → Val) (kU : HexStr → List Key) (P : Nat)
    (hnd : ∀ q, (kU q).Nodup) (hP : 0 < P) :
    ∀ (L : Nat) (pfx : HexStr) (out : List (Key × Val)),
      SeqOut fetch kU P L pfx out → out.Perm (refOut fetch kU L pfx) := by
  intro L
  induction L with
  | zero =>
    intro pfx out h
    rw [refOut_zero]
    exact isLeafOut_perm fetch P (kU pfx) out (hnd pfx) hP h
  | succ L ih =>
    intro pfx out h
    obtain ⟨outs, hf2, rfl⟩ := h
    rw [refOut_succ]
    apply List.Perm.flatten_congr
    rw [List.forall₂_map_right_iff]
    refine List.Forall₂.imp ?_ hf2.flip
    intro o i hso
    exact ih (pfx ++ byteToHex i) o hso

theorem quickOut_perm (fetch : Key → Val) (kU : HexStr → List Key) (P : Nat)
    (hnd : ∀ q, (kU q).Nodup) (hP : 0 < P) :
    ∀ (L : Nat) (pfx : HexStr) (out : List (Key × Val)),
      QuickOut fetch kU P L pfx out → out.Perm (refOut fetch kU L pfx) := by
  intro L
  induction L with
  | zero =>
    intro pfx out h
    rw [refOut_zero]
    exact isLeafOut_perm fetch P (kU pfx) out (hnd pfx) hP h
  | succ L ih =>
    intro pfx out h
    cases L with
    | zero =>
      obtain ⟨outs, hf2, hint⟩ := h
      refine (interleaving_perm hint).trans ?_
      rw [refOut_succ]
      apply List.Perm.flatten_congr
      rw [List.forall₂_map_right_iff]
      refine List.Forall₂.imp ?_ hf2.flip
      intro o i hlo
      rw [refOut_zero]
      exact isLeafOut_perm fetch P (kU (pfx ++ byteToHex i)) o (hnd _) hP hlo
    | succ L2 =>
      obtain ⟨outs, hf2, rfl⟩ := h
      rw [refOut_succ]
      apply List.Perm.flatten_congr
      rw [List.forall₂_map_right_iff]
      refine List.Forall₂.imp ?_ hf2.flip
      intro o i hq
      exact ih (pfx ++ byteToHex i) o hq

/-- C4: over the same store state (the same key list under every leaf
prefix and the same value per key at the marker), a sequential traversal
and a QUICK_MODE traversal with its 256 interleaved last-level leaf
traversals append the same set of entries to the snapshot artifact; only
the order of entries can differ. -/
theorem C4_mode_equivalence (fetch : Key → Val) (keysUnder : HexStr → List Key) (P L : Nat)
    (pfx : HexStr) (out1 out2 : List (Key × Val))
    (hnd : ∀ q, (keysUnder q).Nodup) (hP : 0 < P)
    (h1 : SeqOut fetch keysUnder P L pfx out1)
    (h2 : QuickOut fetch keysUnder P L pfx out2) :
    out1.Perm out2 :=
  (seqOut_perm fetch keysUnder P hnd hP L pfx out1 h1).trans
    (quickOut_perm fetch keysUnder P hnd hP L pfx out2 h2).symm

theorem C4_mode_equivalence_witness :
    (∀ q, (emptyKeysUnder q).Nodup) ∧ 0 < 1 ∧
    SeqOut emptyFetch emptyKeysUnder 1 0 rootPrefix [] ∧
    QuickOut emptyFetch emptyKeysUnder 1 0 rootPrefix [] ∧
    ([] : List (Key × Val)).Perm [] := by
  have hleaf : IsLeafOut emptyFetch 1 (emptyKeysUnder rootPrefix) [] :=
    ⟨[(none, [])], [[]], rfl,
      List.Forall₂.cons ⟨[], List.Perm.nil, rfl⟩ List.Forall₂.nil, rfl⟩
  have hseq : SeqOut emptyFetch emptyKeysUnder 1 0 rootPrefix [] := hleaf
  have hquick : QuickOut emptyFetch emptyKeysUnder 1 0 rootPrefix [] := hleaf
  exact ⟨fun q => List.nodup_nil, Nat.one_pos, hseq, hquick,
    C4_mode_equivalence emptyFetch emptyKeysUnder 1 0 rootPrefix [] []
      (fun q => List.nodup_nil) Nat.one_pos hseq hquick⟩

/-- C5 counterexample: with two listed keys and the completion order in
which the second value fetch finishes first, the `pairs` array holds the
page's entries in completion order, not in listing order: the claim that
entries within a page always appear in listing order fails. -/
theorem C5_completion_order_counterexample :
    ([1, 0] : List Nat).Perm (List.range pageKeys.length) ∧
    pagePush fetchId pageKeys [1, 0] ≠ pageEntries fetchId pageKeys := by
  constructor
  · decide
  · decide

/-- C5 (amended): within every fetched page, the pairs pushed by the
concurrently issued value fetches are exactly the page's listed keys each
paired with its fetched value -- the same multiset as the listing-order
zip -- but they appear in the completion order of the fetches, an
arbitrary permutation of listing order rather than listing order itself. -/
theorem C5_page_multiset (fetch : Key → Val) (keys : List Key) (order : List Nat)
    (h : order.Perm (List.range keys.length)) :
    (pagePush fetch keys order).Perm (pageEntries fetch keys) :=
  pagePush_perm fetch keys order h

theorem C5_page_multiset_witness :
    ([1, 0] : List Nat).Perm (List.range pageKeys.length) ∧
    (pagePush fetchId pageKeys [1, 0]).Perm (pageEntries fetchId pageKeys) :=
  ⟨by decide, C5_page_multiset fetchId pageKeys [1, 0] (by decide)⟩

/-- C9: a key that is listed but whose value fetch reports it absent
(deleted between listing and fetch) is still recorded in the page's pairs,
with the explicit absent value rather than being dropped: the page keeps
one pair per listed key, whatever the completion order, and absence is not
an error. -/
theorem C9_absent_value_recorded (fetch : Key → Val) (keys : List Key) (order : List Nat)
    (k : Key) (horder : order.Perm (List.range keys.length)) (hk : k ∈ keys)
    (habs : fetch k = none) :
    (k, (none : Val)) ∈ pagePush fetch keys order ∧
    (pagePush fetch keys order).length = keys.length := by
  have hperm := pagePush_perm fetch keys order horder
  constructor
  · apply hperm.mem_iff.mpr
    rw [← habs]
    exact List.mem_map.mpr ⟨k, hk, rfl⟩
  · rw [hperm.length_eq]
    exact List.length_map keys _

theorem C9_absent_value_recorded_witness :
    ([1, 0] : List Nat).Perm (List.range pageKeys.length) ∧
    "0x01".data ∈ pageKeys ∧
    emptyFetch "0x01".data = none ∧
    ("0x01".data, (none : Val)) ∈ pagePush emptyFetch pageKeys [1, 0] ∧
    (pagePush emptyFetch pageKeys [1, 0]).length = pageKeys.length := by
  have h := C9_absent_value_recorded emptyFetch pageKeys [1, 0] "0x01".data
    (by decide) (by decide) rfl
  exact ⟨by decide, by decide, rfl, h.1, h.2⟩

/-- C6: when the snapshot artifact already exists, the acquisition phase
issues no remote state query at all -- no block-hash query, no key listing,
no value fetch -- and the existing artifact is used unchanged as the
snapshot. -/
theorem C6_cache_short_circuit (s : List (Key × Val)) (freshRun : FetchRun) :
    (acquisition (some s) freshRun).queries = [] ∧
    (acquisition (some s) freshRun).snapshot = s := by
  exact ⟨rfl, rfl⟩

theorem C6_cache_short_circuit_witness :
    (acquisition (some []) sampleFetchRun).queries = [] ∧
    (acquisition (some []) sampleFetchRun).snapshot = ([] : List (Key × Val)) :=
  C6_cache_short_circuit [] sampleFetchRun

theorem C1_selection_witness :
    selectEntries ["0xAA".data] ["0xAA99".data] exampleSnapshot =
      [("0xAA01".data, some "0x1".data)] :=
  C1_selection.2.1

theorem C8_merge_idempotent_witness :
    mergeStep [] [] [] sampleSchedKey sampleCodeHex
        (mergeStep [] [] [] sampleSchedKey sampleCodeHex emptyTop) =
      mergeStep [] [] [] sampleSchedKey sampleCodeHex emptyTop :=
  C8_merge_idempotent [] [] [] sampleSchedKey sampleCodeHex emptyTop

end ForkOff
